import Mathlib

/-!
Verification of the converter combinators in `parse_type.py`.

Python strings are embedded as `List Char`; string primitives the source
relies on (`str.strip`, `str.split`, `str.lower`, `str.join`, `dict` lookup,
`list.index`) are modelled explicitly below, and fallible conversions return
`Except PyError`.
-/

/-- Errors a conversion can raise, mirroring the Python exceptions the
converter functions of `parse_type.py` may propagate: `assert` failures,
`ValueError` from string operations, and `KeyError` from mapping lookup. -/
inductive PyError where
  | assertionError : PyError
  | valueError : PyError
  | keyError : List Char → PyError
  deriving DecidableEq, Repr

deriving instance DecidableEq for Except

/-- Python whitespace characters recognized by `str.strip` and `str.split`
(ASCII subset; the source only deals with ASCII pattern text). -/
def isPySpace (c : Char) : Bool :=
  c = ' ' || c = '\t' || c = '\n' || c = '\r' || c = '\x0b' || c = '\x0c'

/-- Python `str.lstrip()`: drop leading whitespace. -/
def pylstrip (s : List Char) : List Char := s.dropWhile isPySpace

/-- Python `str.rstrip()`: drop trailing whitespace. -/
def pyrstrip (s : List Char) : List Char := (pylstrip s.reverse).reverse

/-- Python `str.strip()`: drop surrounding whitespace. -/
def pystrip (s : List Char) : List Char := pyrstrip (pylstrip s)

/-- Python `str.lower()` (ASCII case folding; the source's enum keys are ASCII). -/
def pylower (s : List Char) : List Char := s.map Char.toLower

/-- Whether `sep` occurs at the head of `s` (one step of Python substring search). -/
def occursAtHead : List Char → List Char → Bool
  | [], _ => true
  | _ :: _, [] => false
  | p :: ps, c :: cs => p = c && occursAtHead ps cs

/-- Worker for Python `str.split(sep)`: scans `s` left to right and starts a
new chunk after each leftmost, non-overlapping occurrence of `sep`.  `fuel`
bounds the recursion; callers pass `s.length`, which always suffices for a
non-empty `sep`. -/
def splitGo (sep : List Char) : Nat → List Char → List (List Char)
  | _, [] => [[]]
  | 0, s => [s]
  | fuel + 1, c :: rest =>
    if occursAtHead sep (c :: rest) then
      [] :: splitGo sep fuel (rest.drop (sep.length - 1))
    else
      match splitGo sep fuel rest with
      | [] => [[c]]
      | x :: xs => (c :: x) :: xs

/-- Python `text.split(sep)`: raises `ValueError` on an empty separator and
otherwise splits at every occurrence of `sep` (an empty `text` yields `[""]`). -/
def pysplit (sep s : List Char) : Except PyError (List (List Char)) :=
  if sep = [] then .error .valueError else .ok (splitGo sep s.length s)

/-- Python `sep.join(items)`. -/
def pyjoin (sep : List Char) : List (List Char) → List Char
  | [] => []
  | [a] => a
  | a :: b :: rest => a ++ sep ++ pyjoin sep (b :: rest)

/-- Python `dict` lookup (`d[k]`, and also the `k in d` test), as an
insertion-ordered association list with the first matching key winning. -/
def dictLookup (m : List (List Char × α)) (k : List Char) : Option α :=
  match m with
  | [] => none
  | (k1, v) :: rest => if k1 = k then some v else dictLookup rest k

/-- Python `list.index(x)`: index of the first occurrence.  (`list.index`
raises `ValueError` when `x` is absent; `parse_choice2` only calls it after
asserting membership, so the nil case is unreachable there.) -/
def listIndex (l : List (List Char)) (x : List Char) : Nat :=
  match l with
  | [] => 0
  | a :: rest => if a = x then 0 else listIndex rest x + 1

/-- The list comprehension `[parse_type(texti.strip()) for texti in parts]`
shared by `parse_list0` and `parse_list`: strips each part, converts it with
`parse_type`, and propagates the first raised error. -/
def convertParts (parse_type : List Char → Except PyError α) :
    List (List Char) → Except PyError (List α)
  | [] => .ok []
  | p :: ps =>
    match parse_type (pystrip p) with
    | .error e => .error e
    | .ok v =>
      match convertParts parse_type ps with
      | .error e => .error e
      | .ok vs => .ok (v :: vs)

/-- Python `%`-formatting of a literal format string: `chunks` are the pieces
of the format string between the `%s` placeholders, interleaved with `args`. -/
def percentFormat : List String → List String → String
  | [c], [] => c
  | c :: cs, a :: rest => c ++ a ++ percentFormat cs rest
  | _, _ => ""

/-- `Cardinality.make_zero_or_one_pattern`: `r"(%s)?" % pattern`. -/
def make_zero_or_one_pattern (pattern : String) : String :=
  percentFormat ["(", ")?"] [pattern]

/-- `Cardinality.make_zero_or_more_pattern`: `r"(%s)?(\s*%s\s*(%s))*" % (pattern, listsep, pattern)`. -/
def make_zero_or_more_pattern (pattern listsep : String) : String :=
  percentFormat ["(", ")?(\\s*", "\\s*(", "))*"] [pattern, listsep, pattern]

/-- `Cardinality.make_one_or_more_pattern`: `r"(%s)(\s*%s\s*(%s))*" % (pattern, listsep, pattern)`. -/
def make_one_or_more_pattern (pattern listsep : String) : String :=
  percentFormat ["(", ")(\\s*", "\\s*(", "))*"] [pattern, listsep, pattern]

/-- `TypeBuilder.default_pattern`. -/
def default_pattern : String := ".+?"

/-- The inner `parse_optional(text)` of `TypeBuilder.with_zero_or_one`:
truthy text is stripped; falsy (empty) text yields `None`; otherwise the base
converter runs on the stripped text. -/
def parse_optional (parse_type : List Char → Except PyError α) (text : List Char) :
    Except PyError (Option α) :=
  let text1 := if text ≠ [] then pystrip text else text
  if text1 = [] then .ok none
  else
    match parse_type text1 with
    | .error e => .error e
    | .ok v => .ok (some v)

/-- The inner `parse_list0(text)` of `TypeBuilder.with_zero_or_more`:
truthy text is stripped; falsy (empty or whitespace-only) text yields `[]`;
otherwise the stripped text is split on `listsep` and each part is stripped
and converted. -/
def parse_list0 (parse_type : List Char → Except PyError α) (listsep text : List Char) :
    Except PyError (List α) :=
  let text1 := if text ≠ [] then pystrip text else text
  if text1 = [] then .ok []
  else
    match pysplit listsep text1 with
    | .error e => .error e
    | .ok parts => convertParts parse_type parts

/-- The inner `parse_list(text)` of `TypeBuilder.with_one_or_more`: the text is
split on `listsep` with no blank special case, and each part is stripped and
converted. -/
def parse_list (parse_type : List Char → Except PyError α) (listsep text : List Char) :
    Except PyError (List α) :=
  match pysplit listsep text with
  | .error e => .error e
  | .ok parts => convertParts parse_type parts

/-- The inner `parse_enum(text)` of `TypeBuilder.make_enum`: exact lookup
first; on a miss the text is lowercased and the mapping is indexed with the
lowered text, raising `KeyError` when that is absent too. -/
def parse_enum (mappings : List (List Char × α)) (text : List Char) : Except PyError α :=
  match dictLookup mappings text with
  | some v => .ok v
  | none =>
    match dictLookup mappings (pylower text) with
    | some v => .ok v
    | none => .error (.keyError (pylower text))

/-- The inner `parse_choice(text)` of `TypeBuilder.make_choice`: asserts
membership in `choices`, then returns the literal text (`Sum.inl`) or, when a
`value_converter` was supplied, the mapped value (`Sum.inr`). -/
def parse_choice (choices : List (List Char)) (value_converter : Option (List Char → α))
    (text : List Char) : Except PyError (List Char ⊕ α) :=
  if text ∈ choices then
    match value_converter with
    | some f => .ok (Sum.inr (f text))
    | none => .ok (Sum.inl text)
  else .error .assertionError

/-- The inner `parse_choice2(text)` of `TypeBuilder.make_choice2`: asserts
membership in `choices` first, then returns `None` for empty text and
otherwise the pair `(choices.index(text), text)`. -/
def parse_choice2 (choices : List (List Char)) (text : List Char) :
    Except PyError (Option (Nat × List Char)) :=
  if text ∈ choices then
    if text = [] then .ok none
    else .ok (some (listIndex choices text, text))
  else .error .assertionError

/-- The zero-or-more conversion as the spec words it (for comparison with
`parse_list0`): blank text gives `[]`; otherwise the matched text itself — not
the stripped text — is split on `sep`, and each part is stripped and converted. -/
def parse_list0_spec (parse_type : List Char → Except PyError α) (listsep text : List Char) :
    Except PyError (List α) :=
  if pystrip text = [] then .ok []
  else
    match pysplit listsep text with
    | .error e => .error e
    | .ok parts => convertParts parse_type parts

/-- The spec's round-trip conclusion for list converters: each item converted
by the base converter in input order, first failure propagating (the items are
taken as-is, without stripping). -/
def mapExcept (f : List Char → Except PyError α) :
    List (List Char) → Except PyError (List α)
  | [] => .ok []
  | a :: rest =>
    match f a with
    | .error e => .error e
    | .ok v =>
      match mapExcept f rest with
      | .error e => .error e
      | .ok vs => .ok (v :: vs)

/-- Shorthand for the character list of a string literal (test inputs). -/
def toL (s : String) : List Char := s.toList

/-- Prepend `p` to the first chunk of a chunk list (`[p]` when there is none);
describes how `splitGo` treats a separator-free leading segment. -/
def consHead (p : List Char) : List (List Char) → List (List Char)
  | [] => [p]
  | x :: xs => (p ++ x) :: xs

/-- Append `suf` to the last chunk of a chunk list; describes how `splitGo`
treats a separator-free trailing segment. -/
def appLast (suf : List Char) : List (List Char) → List (List Char)
  | [] => []
  | [x] => [x ++ suf]
  | x :: y :: ys => x :: appLast suf (y :: ys)

/-- The whitespace run that `pystrip` removes at the front. -/
def preOf (s : List Char) : List Char := s.takeWhile isPySpace

/-- The whitespace run that `pystrip` removes at the back. -/
def sufOf (s : List Char) : List Char := ((pylstrip s).reverse.takeWhile isPySpace).reverse

/-! ### Simple structural facts -/

theorem pystrip_nil : pystrip ([] : List Char) = [] := rfl

/-- `listIndex` returns `i` when the element at `i` does not occur earlier. -/
theorem listIndex_get (l : List (List Char)) (i : Nat) (h : i < l.length)
    (hne : l.get ⟨i, h⟩ ∉ l.take i) : listIndex l (l.get ⟨i, h⟩) = i := by
  induction l generalizing i with
  | nil => exact absurd h (by simp)
  | cons a rest ih =>
    cases i with
    | zero => simp [listIndex]
    | succ j =>
      have hj : j < rest.length := Nat.lt_of_succ_lt_succ h
      have hget : (a :: rest).get ⟨j + 1, h⟩ = rest.get ⟨j, hj⟩ := rfl
      rw [hget] at hne ⊢
      rw [List.take_succ_cons] at hne
      have h1 : rest.get ⟨j, hj⟩ ≠ a := by
        intro hEq
        exact hne (hEq ▸ List.mem_cons_self a (rest.take j))
      have h2 : rest.get ⟨j, hj⟩ ∉ rest.take j := by
        intro hm
        exact hne (List.mem_cons_of_mem a hm)
      unfold listIndex
      rw [if_neg (fun hEq => h1 hEq.symm)]
      rw [ih j hj h2]

/-! ### Claim theorems: choice converters (C1, C4, C8) -/

/-- Claim C1 (corrected, counterexample): with `choices = ["yes", "no"]`, the
converter built by `make_choice2` applied to the empty string fails the
membership assertion instead of returning the absent-value marker `None`,
because the `assert text in choices` precedes the empty-text check. -/
theorem parse_choice2_empty_cex :
    parse_choice2 [toL "yes", toL "no"] [] = .error .assertionError ∧
      Except.error PyError.assertionError ≠
        (Except.ok none : Except PyError (Option (Nat × List Char))) := by
  decide

/-- Claim C1 (amended): converting the empty string with the `make_choice2`
converter yields the absent-value marker `None` exactly when `""` is itself a
member of `choices`; otherwise the membership assertion fails first. -/
theorem parse_choice2_empty (choices : List (List Char)) :
    parse_choice2 choices [] =
      if [] ∈ choices then .ok none else .error .assertionError := by
  unfold parse_choice2
  by_cases h : ([] : List Char) ∈ choices
  · rw [if_pos h, if_pos h, if_pos rfl]
  · rw [if_neg h, if_neg h]

/-- Claim C4: the `make_choice` converter fails with the assertion-style
membership violation on text outside `choices`, and on a member returns the
text unchanged (`Sum.inl`), or the mapped value (`Sum.inr`) when a
`value_converter` was supplied. -/
theorem parse_choice_spec (choices : List (List Char)) (vc : Option (List Char → α))
    (t : List Char) :
    (t ∉ choices → parse_choice choices vc t = .error .assertionError) ∧
    (t ∈ choices → parse_choice choices vc t =
      .ok (match vc with | none => Sum.inl t | some f => Sum.inr (f t))) := by
  constructor
  · intro h
    unfold parse_choice
    rw [if_neg h]
  · intro h
    unfold parse_choice
    rw [if_pos h]
    cases vc <;> rfl

theorem parse_choice_spec_witness :
    parse_choice [toL "yes", toL "no"] (none : Option (List Char → Nat)) (toL "maybe") =
        .error .assertionError ∧
      parse_choice [toL "yes", toL "no"] (none : Option (List Char → Nat)) (toL "yes") =
        .ok (Sum.inl (toL "yes")) :=
  ⟨(parse_choice_spec _ _ _).1 (by decide), (parse_choice_spec _ _ _).2 (by decide)⟩

/-- Claim C8 (corrected, counterexample): with duplicate choices
`["a", "a"]`, converting `choices[1]` returns the pair with the first index,
`(0, "a")`, not `(1, "a")`. -/
theorem parse_choice2_index_cex :
    parse_choice2 [toL "a", toL "a"] (toL "a") = .ok (some (0, toL "a")) ∧
      (Except.ok (some (0, toL "a")) : Except PyError (Option (Nat × List Char))) ≠
        .ok (some (1, toL "a")) := by
  decide

/-- Claim C8 (amended): the `make_choice2` converter applied to `choices[i]`
returns `(i, choices[i])` provided `choices[i]` is non-empty (otherwise `None`
is returned) and does not occur before position `i` (`list.index` returns the
first index). -/
theorem parse_choice2_at_index (choices : List (List Char)) (i : Nat)
    (h : i < choices.length) (hne : choices.get ⟨i, h⟩ ≠ [])
    (hfirst : choices.get ⟨i, h⟩ ∉ choices.take i) :
    parse_choice2 choices (choices.get ⟨i, h⟩) = .ok (some (i, choices.get ⟨i, h⟩)) := by
  unfold parse_choice2
  rw [if_pos (List.get_mem choices i h), if_neg hne, listIndex_get choices i h hfirst]

theorem parse_choice2_at_index_witness :
    parse_choice2 [toL "yes", toL "no"] (toL "no") = .ok (some (1, toL "no")) :=
  parse_choice2_at_index [toL "yes", toL "no"] 1 (by decide) (by decide) (by decide)

/-! ### Claim theorems: enumeration converter (C3, C10) -/

/-- Claim C3: the `make_enum` converter looks up the exact text first (so for
every key `k` of the mapping, converting `k` yields `mapping[k]`); on a miss
it looks up the lowercased text; and when both lookups miss it raises
`KeyError`, which is propagated, not swallowed. -/
theorem parse_enum_spec (m : List (List Char × α)) (t : List Char) :
    (∀ v, dictLookup m t = some v → parse_enum m t = .ok v) ∧
    (dictLookup m t = none →
      ∀ v, dictLookup m (pylower t) = some v → parse_enum m t = .ok v) ∧
    (dictLookup m t = none → dictLookup m (pylower t) = none →
      parse_enum m t = .error (.keyError (pylower t))) := by
  refine ⟨?_, ?_, ?_⟩
  · intro v hv
    unfold parse_enum
    rw [hv]
  · intro h0 v hv
    unfold parse_enum
    rw [h0, hv]
  · intro h0 h1
    unfold parse_enum
    rw [h0, h1]

theorem parse_enum_spec_witness :
    parse_enum [(toL "yes", true), (toL "no", false)] (toL "no") = .ok false ∧
      parse_enum [(toL "yes", true), (toL "no", false)] (toL "YES") = .ok true :=
  ⟨(parse_enum_spec _ _).1 false (by decide),
    (parse_enum_spec _ _).2.1 (by decide) true (by decide)⟩

/-- Claim C10: the case-insensitive fallback of `make_enum` is asymmetric — it
only lowercases.  When neither the text nor its lowercased form is a key, the
conversion raises `KeyError`; in particular a non-lowercase key such as
`"YES"` is only reachable by its exact form, and its lowercase form fails when
absent from the mapping (see the witness). -/
theorem parse_enum_no_uppercase_fallback (m : List (List Char × α)) (t : List Char)
    (h0 : dictLookup m t = none) (h1 : dictLookup m (pylower t) = none) :
    parse_enum m t = .error (.keyError (pylower t)) := by
  unfold parse_enum
  rw [h0, h1]

theorem parse_enum_no_uppercase_fallback_witness :
    parse_enum [(toL "YES", (1 : Nat))] (toL "yes") = .error (.keyError (toL "yes")) :=
  parse_enum_no_uppercase_fallback [(toL "YES", (1 : Nat))] (toL "yes")
    (by decide) (by decide)

/-! ### Claim theorems: optional converter (C6), one-or-more on empty (C7) -/

/-- Claim C6: the `with_zero_or_one` converter returns the absent-value marker
`None` on empty or whitespace-only text, and otherwise the base converter's
result on the whitespace-stripped text. -/
theorem parse_optional_spec (parse_type : List Char → Except PyError α) (text : List Char) :
    parse_optional parse_type text =
      if pystrip text = [] then .ok none else (parse_type (pystrip text)).map some := by
  cases text with
  | nil => simp [parse_optional, pystrip_nil]
  | cons c rest =>
    unfold parse_optional
    simp only [ne_eq, reduceCtorEq, not_false_eq_true, if_true]
    by_cases h : pystrip (c :: rest) = []
    · rw [if_pos h, if_pos h]
    · rw [if_neg h, if_neg h]
      cases parse_type (pystrip (c :: rest)) <;> rfl

/-- Claim C7: the `with_one_or_more` converter never special-cases blank
input — on the empty string, splitting yields a single empty-string element
which is passed to the base converter, so the result is `[base("")]`. -/
theorem parse_list_empty_text (parse_type : List Char → Except PyError α)
    (listsep : List Char) (hsep : listsep ≠ []) :
    parse_list parse_type listsep [] = (parse_type []).map (fun v => [v]) := by
  unfold parse_list pysplit
  rw [if_neg hsep]
  show convertParts parse_type [[]] = _
  unfold convertParts
  rw [pystrip_nil]
  cases parse_type [] <;> rfl

theorem parse_list_empty_text_witness :
    parse_list (fun _ => Except.ok (0 : Nat)) (toL ",") [] = .ok [0] := by
  rw [parse_list_empty_text _ _ (by decide)]
  rfl

/-! ### Claim theorem: pattern formulas (C9) -/

/-- Claim C9: the three `Cardinality` pattern constructors produce exactly the
spec's formulas, by textual substitution of `pattern` and `listsep` into the
format strings, with no validation of the inner pattern. -/
theorem cardinality_pattern_formulas (p sep : String) :
    make_zero_or_one_pattern p = "(" ++ p ++ ")?" ∧
    make_zero_or_more_pattern p sep = "(" ++ p ++ ")?(\\s*" ++ sep ++ "\\s*(" ++ p ++ "))*" ∧
    make_one_or_more_pattern p sep = "(" ++ p ++ ")(\\s*" ++ sep ++ "\\s*(" ++ p ++ "))*" := by
  refine ⟨rfl, ?_, ?_⟩ <;>
    simp [make_zero_or_more_pattern, make_one_or_more_pattern, percentFormat,
      String.append_assoc]

/-! ### Lemmas about the split worker -/

theorem splitGo_ne_nil (sep : List Char) (fuel : Nat) (s : List Char) :
    splitGo sep fuel s ≠ [] := by
  cases s with
  | nil => simp [splitGo]
  | cons c rest =>
    cases fuel with
    | zero => simp [splitGo]
    | succ f =>
      simp only [splitGo]
      by_cases h : occursAtHead sep (c :: rest) = true
      · rw [if_pos h]
        simp
      · rw [if_neg h]
        cases splitGo sep f rest <;> simp

/-- The split result does not depend on the fuel, as long as it covers the
length of the text. -/
theorem splitGo_fuel (sep : List Char) :
    ∀ (f g : Nat) (s : List Char), s.length ≤ f → s.length ≤ g →
      splitGo sep f s = splitGo sep g s := by
  intro f
  induction f with
  | zero =>
    intro g s hf _
    have hs : s = [] := List.eq_nil_of_length_eq_zero (Nat.le_zero.mp hf)
    subst hs
    simp [splitGo]
  | succ f ih =>
    intro g s hf hg
    cases s with
    | nil => simp [splitGo]
    | cons c rest =>
      cases g with
      | zero =>
        exfalso
        simp at hg
      | succ g' =>
        have hr : rest.length ≤ f := Nat.le_of_succ_le_succ hf
        have hr' : rest.length ≤ g' := Nat.le_of_succ_le_succ hg
        have hd : (rest.drop (sep.length - 1)).length ≤ f := by
          rw [List.length_drop]
          omega
        have hd' : (rest.drop (sep.length - 1)).length ≤ g' := by
          rw [List.length_drop]
          omega
        simp only [splitGo]
        by_cases h : occursAtHead sep (c :: rest) = true
        · rw [if_pos h, if_pos h, ih g' _ hd hd']
        · rw [if_neg h, if_neg h, ih g' rest hr hr']

/-- A non-empty separator does not occur at a character outside it. -/
theorem occursAtHead_cons_false (sep : List Char) (hsep : sep ≠ []) (c : Char)
    (hc : c ∉ sep) (rest : List Char) :
    ¬ (occursAtHead sep (c :: rest) = true) := by
  cases sep with
  | nil => exact absurd rfl hsep
  | cons p ps =>
    have hpc : p ≠ c := by
      intro hEq
      apply hc
      rw [← hEq]
      exact List.mem_cons_self p ps
    simp [occursAtHead, hpc]

theorem occursAtHead_length (sep : List Char) :
    ∀ (s : List Char), occursAtHead sep s = true → sep.length ≤ s.length := by
  induction sep with
  | nil =>
    intro s _
    simp
  | cons p ps ih =>
    intro s h
    cases s with
    | nil => simp [occursAtHead] at h
    | cons c cs =>
      simp only [occursAtHead, Bool.and_eq_true] at h
      have := ih cs h.2
      simp only [List.length_cons]
      omega

theorem occursAtHead_append_self (sep : List Char) (t : List Char) :
    occursAtHead sep (sep ++ t) = true := by
  induction sep with
  | nil => simp [occursAtHead]
  | cons p ps ih => simp [occursAtHead, ih]

/-- Appending a list disjoint from the separator does not create a separator
occurrence at the head. -/
theorem occursAtHead_append_of_disjoint (sep : List Char) :
    ∀ (a b : List Char), (∀ x ∈ sep, x ∉ b) →
      occursAtHead sep (a ++ b) = occursAtHead sep a := by
  induction sep with
  | nil =>
    intro a b _
    simp [occursAtHead]
  | cons p ps ih =>
    intro a b hdisj
    cases a with
    | nil =>
      cases b with
      | nil => rfl
      | cons c cs =>
        have hpc : p ≠ c := by
          intro hEq
          apply hdisj p (List.mem_cons_self p ps)
          rw [hEq]
          exact List.mem_cons_self c cs
        simp [occursAtHead, hpc]
    | cons a0 as =>
      simp only [List.cons_append, occursAtHead, List.append_eq]
      rw [ih as b (fun x hx => hdisj x (List.mem_cons_of_mem p hx))]

/-- Splitting a text disjoint from the separator yields that text as the only
chunk. -/
theorem splitGo_no_sep (sep : List Char) (hsep : sep ≠ []) :
    ∀ (f : Nat) (s : List Char), (∀ x ∈ s, x ∉ sep) → s.length ≤ f →
      splitGo sep f s = [s] := by
  intro f
  induction f with
  | zero =>
    intro s _ hf
    have hs : s = [] := List.eq_nil_of_length_eq_zero (Nat.le_zero.mp hf)
    subst hs
    simp [splitGo]
  | succ f ih =>
    intro s hdisj hf
    cases s with
    | nil => simp [splitGo]
    | cons c rest =>
      have hocc := occursAtHead_cons_false sep hsep c
        (hdisj c (List.mem_cons_self c rest)) rest
      simp only [splitGo]
      rw [if_neg hocc]
      rw [ih rest (fun x hx => hdisj x (List.mem_cons_of_mem c hx))
        (Nat.le_of_succ_le_succ hf)]

theorem consHead_nil_left (l : List (List Char)) (h : l ≠ []) : consHead [] l = l := by
  cases l with
  | nil => exact absurd rfl h
  | cons x xs => simp [consHead]

theorem appLast_ne_nil (suf : List Char) (l : List (List Char)) (h : l ≠ []) :
    appLast suf l ≠ [] := by
  cases l with
  | nil => exact absurd rfl h
  | cons x xs => cases xs <;> simp [appLast]

/-- A leading segment disjoint from the separator is prepended to the first
chunk of the split. -/
theorem splitGo_append_left (sep : List Char) (hsep : sep ≠ []) :
    ∀ (pre : List Char) (f g : Nat) (s : List Char),
      (∀ x ∈ pre, x ∉ sep) → (pre ++ s).length ≤ f → s.length ≤ g →
      splitGo sep f (pre ++ s) = consHead pre (splitGo sep g s) := by
  intro pre
  induction pre with
  | nil =>
    intro f g s _ hf hg
    rw [List.nil_append] at hf ⊢
    rw [splitGo_fuel sep f g s hf hg]
    exact (consHead_nil_left _ (splitGo_ne_nil sep g s)).symm
  | cons c pre' ih =>
    intro f g s hdisj hf hg
    have hlen : (pre' ++ s).length + 1 ≤ f := by simpa using hf
    obtain ⟨f', rfl⟩ : ∃ f', f = f' + 1 := ⟨f - 1, by omega⟩
    have hocc := occursAtHead_cons_false sep hsep c
      (hdisj c (List.mem_cons_self c pre')) (pre' ++ s)
    rw [List.cons_append]
    simp only [splitGo]
    rw [if_neg hocc]
    have hdisj' : ∀ x ∈ pre', x ∉ sep := fun x hx => hdisj x (List.mem_cons_of_mem c hx)
    have hf' : (pre' ++ s).length ≤ f' := by omega
    rw [ih f' g s hdisj' hf' hg]
    cases hsg : splitGo sep g s with
    | nil => exact absurd hsg (splitGo_ne_nil sep g s)
    | cons x xs => simp [consHead, List.cons_append]

/-- A trailing segment disjoint from the separator is appended to the last
chunk of the split. -/
theorem splitGo_append_right (sep : List Char) (hsep : sep ≠ []) :
    ∀ (f : Nat) (s suf : List Char) (g : Nat),
      (∀ x ∈ sep, x ∉ suf) → (s ++ suf).length ≤ f → s.length ≤ g →
      splitGo sep f (s ++ suf) = appLast suf (splitGo sep g s) := by
  intro f
  induction f with
  | zero =>
    intro s suf g hdisj hf hg
    have h0 : (s ++ suf).length = 0 := Nat.le_zero.mp hf
    rw [List.length_append] at h0
    have hs : s = [] := List.eq_nil_of_length_eq_zero (by omega)
    have hsuf : suf = [] := List.eq_nil_of_length_eq_zero (by omega)
    subst hs
    subst hsuf
    simp [splitGo, appLast]
  | succ f ih =>
    intro s suf g hdisj hf hg
    cases s with
    | nil =>
      rw [List.nil_append]
      rw [splitGo_no_sep sep hsep (f + 1) suf
        (fun x hx hxsep => hdisj x hxsep hx) (by simpa using hf)]
      rw [show splitGo sep g [] = [[]] from by simp [splitGo]]
      simp [appLast]
    | cons c rest =>
      obtain ⟨g', rfl⟩ : ∃ g', g = g' + 1 := ⟨g - 1, by simp at hg; omega⟩
      have hD : occursAtHead sep ((c :: rest) ++ suf) = occursAtHead sep (c :: rest) :=
        occursAtHead_append_of_disjoint sep (c :: rest) suf hdisj
      rw [List.cons_append] at hD
      rw [List.cons_append]
      simp only [splitGo]
      by_cases hocc : occursAtHead sep (c :: rest) = true
      · have hocc' : occursAtHead sep (c :: (rest ++ suf)) = true := by
          rw [hD]
          exact hocc
        rw [if_pos hocc', if_pos hocc]
        have hk : sep.length - 1 ≤ rest.length := by
          have := occursAtHead_length sep (c :: rest) hocc
          simp only [List.length_cons] at this
          omega
        have hdrop : (rest ++ suf).drop (sep.length - 1) =
            rest.drop (sep.length - 1) ++ suf := by
          rw [List.drop_append_eq_append_drop, Nat.sub_eq_zero_of_le hk, List.drop_zero]
        rw [hdrop]
        have hlen1 : (rest.drop (sep.length - 1) ++ suf).length ≤ f := by
          rw [List.length_append, List.length_drop]
          have hflen : (c :: (rest ++ suf)).length ≤ f + 1 := by
            rw [← List.cons_append]
            exact hf
          simp only [List.length_cons, List.length_append] at hflen
          omega
        have hlen2 : (rest.drop (sep.length - 1)).length ≤ g' := by
          rw [List.length_drop]
          simp only [List.length_cons] at hg
          omega
        rw [ih (rest.drop (sep.length - 1)) suf g' hdisj hlen1 hlen2]
        cases hL : splitGo sep g' (rest.drop (sep.length - 1)) with
        | nil => exact absurd hL (splitGo_ne_nil sep g' _)
        | cons y ys => simp [appLast]
      · have hocc' : ¬ (occursAtHead sep (c :: (rest ++ suf)) = true) := by
          rw [hD]
          exact hocc
        rw [if_neg hocc', if_neg hocc]
        have hlen1 : (rest ++ suf).length ≤ f := by
          have hflen : (c :: (rest ++ suf)).length ≤ f + 1 := by
            rw [← List.cons_append]
            exact hf
          simpa using hflen
        have hlen2 : rest.length ≤ g' := by
          simp only [List.length_cons] at hg
          omega
        rw [ih rest suf g' hdisj hlen1 hlen2]
        cases hL : splitGo sep g' rest with
        | nil => exact absurd hL (splitGo_ne_nil sep g' rest)
        | cons y ys =>
          cases ys with
          | nil => simp [appLast, List.cons_append]
          | cons z zs => simp [appLast]

/-- Splitting the separator-joined items recovers the items, provided no item
contains a character of the separator. -/
theorem splitGo_pyjoin (sep : List Char) (hsep : sep ≠ []) :
    ∀ (items : List (List Char)) (f : Nat), items ≠ [] →
      (∀ a ∈ items, ∀ x ∈ a, x ∉ sep) → (pyjoin sep items).length ≤ f →
      splitGo sep f (pyjoin sep items) = items := by
  intro items
  induction items with
  | nil =>
    intro f h _ _
    exact absurd rfl h
  | cons a rest ih =>
    intro f _ hdisj hf
    cases rest with
    | nil =>
      exact splitGo_no_sep sep hsep f a (hdisj a (List.mem_cons_self a [])) hf
    | cons b rest' =>
      have hjoin : pyjoin sep (a :: b :: rest') =
          a ++ (sep ++ pyjoin sep (b :: rest')) := by
        show a ++ sep ++ pyjoin sep (b :: rest') = _
        rw [List.append_assoc]
      rw [hjoin] at hf ⊢
      rw [splitGo_append_left sep hsep a f (sep ++ pyjoin sep (b :: rest')).length
        (sep ++ pyjoin sep (b :: rest'))
        (hdisj a (List.mem_cons_self a (b :: rest'))) hf (le_refl _)]
      cases sep with
      | nil => exact absurd rfl hsep
      | cons p ps =>
        have hJlen : (pyjoin (p :: ps) (b :: rest')).length ≤
            (ps ++ pyjoin (p :: ps) (b :: rest')).length := by
          rw [List.length_append]
          omega
        have hsplit : splitGo (p :: ps)
            ((p :: ps) ++ pyjoin (p :: ps) (b :: rest')).length
            ((p :: ps) ++ pyjoin (p :: ps) (b :: rest')) = [] :: b :: rest' := by
          rw [List.cons_append, List.length_cons]
          simp only [splitGo]
          rw [if_pos (by
            rw [← List.cons_append]
            exact occursAtHead_append_self (p :: ps) (pyjoin (p :: ps) (b :: rest')))]
          congr 1
          have hdroplen : (p :: ps).length - 1 = ps.length := by simp
          rw [hdroplen, List.drop_left]
          rw [splitGo_fuel (p :: ps) (ps ++ pyjoin (p :: ps) (b :: rest')).length
            (pyjoin (p :: ps) (b :: rest')).length _ hJlen (le_refl _)]
          exact ih (pyjoin (p :: ps) (b :: rest')).length (by simp)
            (fun x hx => hdisj x (List.mem_cons_of_mem a hx)) (le_refl _)
        rw [hsplit]
        simp [consHead]

/-! ### Lemmas about stripping -/

theorem pylstrip_ws_append (pre s : List Char) (hws : ∀ x ∈ pre, isPySpace x = true) :
    pylstrip (pre ++ s) = pylstrip s := by
  induction pre with
  | nil => rfl
  | cons c pre' ih =>
    rw [List.cons_append]
    unfold pylstrip
    rw [List.dropWhile_cons_of_pos (hws c (List.mem_cons_self c pre'))]
    exact ih (fun x hx => hws x (List.mem_cons_of_mem c hx))

theorem pyrstrip_ws_append (s suf : List Char) (hws : ∀ x ∈ suf, isPySpace x = true) :
    pyrstrip (s ++ suf) = pyrstrip s := by
  unfold pyrstrip
  rw [List.reverse_append, pylstrip_ws_append suf.reverse s.reverse
    (fun x hx => hws x (List.mem_reverse.mp hx))]

theorem pylstrip_append_of_ne_nil : ∀ (s t : List Char), pylstrip s ≠ [] →
    pylstrip (s ++ t) = pylstrip s ++ t := by
  intro s
  induction s with
  | nil =>
    intro t h
    exact absurd rfl h
  | cons c s' ih =>
    intro t h
    unfold pylstrip at h ⊢
    rw [List.cons_append]
    by_cases hc : isPySpace c = true
    · simp only [List.dropWhile_cons_of_pos hc] at h ⊢
      exact ih t h
    · simp only [List.dropWhile_cons_of_neg hc]
      rw [List.cons_append]

theorem pyrstrip_append_of_ne_nil (u z : List Char) (h : pyrstrip z ≠ []) :
    pyrstrip (u ++ z) = u ++ pyrstrip z := by
  have hzr : pylstrip z.reverse ≠ [] := by
    intro hnil
    apply h
    unfold pyrstrip
    rw [hnil]
    rfl
  unfold pyrstrip
  rw [List.reverse_append, pylstrip_append_of_ne_nil z.reverse u.reverse hzr,
    List.reverse_append, List.reverse_reverse]

theorem pystrip_ws_append_left (pre s : List Char) (hws : ∀ x ∈ pre, isPySpace x = true) :
    pystrip (pre ++ s) = pystrip s := by
  unfold pystrip
  rw [pylstrip_ws_append pre s hws]

theorem pylstrip_eq_nil_iff (s : List Char) :
    pylstrip s = [] ↔ ∀ x ∈ s, isPySpace x = true := by
  unfold pylstrip
  exact List.dropWhile_eq_nil_iff

theorem pystrip_ws_append_right (s suf : List Char) (hws : ∀ x ∈ suf, isPySpace x = true) :
    pystrip (s ++ suf) = pystrip s := by
  by_cases h : pylstrip s = []
  · unfold pystrip
    rw [pylstrip_ws_append s suf ((pylstrip_eq_nil_iff s).mp h), h,
      (pylstrip_eq_nil_iff suf).mpr hws]
  · unfold pystrip
    rw [pylstrip_append_of_ne_nil s suf h]
    exact pyrstrip_ws_append (pylstrip s) suf hws

/-! ### Decomposition of a string into whitespace margins and its strip -/

theorem pylstrip_decomp_right (s : List Char) :
    pylstrip s = pyrstrip (pylstrip s) ++ sufOf s := by
  have h3 : ((pylstrip s).reverse.takeWhile isPySpace ++
      (pylstrip s).reverse.dropWhile isPySpace).reverse = (pylstrip s).reverse.reverse := by
    rw [List.takeWhile_append_dropWhile]
  rw [List.reverse_append, List.reverse_reverse] at h3
  exact h3.symm

theorem pystrip_decomp (s : List Char) :
    s = preOf s ++ (pystrip s ++ sufOf s) := by
  have h1 : preOf s ++ pylstrip s = s := List.takeWhile_append_dropWhile isPySpace s
  conv_lhs => rw [← h1]
  rw [pylstrip_decomp_right s]
  rfl

theorem preOf_ws (s : List Char) : ∀ x ∈ preOf s, isPySpace x = true := by
  intro x hx
  exact List.mem_takeWhile_imp hx

theorem sufOf_ws (s : List Char) : ∀ x ∈ sufOf s, isPySpace x = true := by
  intro x hx
  exact List.mem_takeWhile_imp (List.mem_reverse.mp hx)

/-! ### Whitespace margins do not change the stripped chunks -/

theorem map_pystrip_appLast (suf : List Char) (hws : ∀ x ∈ suf, isPySpace x = true) :
    ∀ (l : List (List Char)), l ≠ [] →
      List.map pystrip (appLast suf l) = List.map pystrip l := by
  intro l
  induction l with
  | nil =>
    intro h
    exact absurd rfl h
  | cons x xs ih =>
    intro _
    cases xs with
    | nil => simp [appLast, pystrip_ws_append_right x suf hws]
    | cons y ys =>
      simp only [appLast, List.map_cons]
      rw [ih (by simp), List.map_cons]

theorem map_pystrip_consHead (pre : List Char) (hws : ∀ x ∈ pre, isPySpace x = true)
    (l : List (List Char)) (h : l ≠ []) :
    List.map pystrip (consHead pre l) = List.map pystrip l := by
  cases l with
  | nil => exact absurd rfl h
  | cons x xs =>
    simp only [consHead, List.map_cons]
    rw [pystrip_ws_append_left pre x hws]

theorem convertParts_congr (parse_type : List Char → Except PyError α) :
    ∀ (l1 l2 : List (List Char)), List.map pystrip l1 = List.map pystrip l2 →
      convertParts parse_type l1 = convertParts parse_type l2 := by
  intro l1
  induction l1 with
  | nil =>
    intro l2 h
    cases l2 with
    | nil => rfl
    | cons b bs => simp at h
  | cons a as ih =>
    intro l2 h
    cases l2 with
    | nil => simp at h
    | cons b bs =>
      simp only [List.map_cons, List.cons.injEq] at h
      simp only [convertParts]
      rw [h.1, ih bs h.2]

/-- Splitting a text and splitting its stripped form give the same chunks up
to stripping each chunk, provided the separator is non-empty and contains no
whitespace. -/
theorem map_pystrip_splitGo_pystrip (sep : List Char) (hsep : sep ≠ [])
    (hws : ∀ x ∈ sep, isPySpace x = false) (t : List Char) :
    List.map pystrip (splitGo sep t.length t) =
      List.map pystrip (splitGo sep (pystrip t).length (pystrip t)) := by
  have hpre : ∀ x ∈ preOf t, x ∉ sep := by
    intro x hx hxsep
    have h1 := preOf_ws t x hx
    have h2 := hws x hxsep
    rw [h1] at h2
    exact Bool.noConfusion h2
  have hsuf : ∀ x ∈ sep, x ∉ sufOf t := by
    intro x hx hxsuf
    have h1 := sufOf_ws t x hxsuf
    have h2 := hws x hx
    rw [h1] at h2
    exact Bool.noConfusion h2
  conv_lhs => rw [pystrip_decomp t]
  rw [splitGo_append_left sep hsep (preOf t) _ (pystrip t ++ sufOf t).length
    (pystrip t ++ sufOf t) hpre (le_refl _) (le_refl _)]
  rw [splitGo_append_right sep hsep (pystrip t ++ sufOf t).length (pystrip t) (sufOf t)
    (pystrip t).length hsuf (le_refl _) (le_refl _)]
  rw [map_pystrip_consHead (preOf t) (preOf_ws t) _
    (appLast_ne_nil (sufOf t) _ (splitGo_ne_nil sep (pystrip t).length (pystrip t)))]
  rw [map_pystrip_appLast (sufOf t) (sufOf_ws t) _
    (splitGo_ne_nil sep (pystrip t).length (pystrip t))]

/-! ### Claim theorems: zero-or-more conversion (C5) -/

/-- Claim C5 (corrected, counterexample): with separator `" "` (whitespace)
and text `" a"`, `parse_list0` returns one item — the code splits the
*stripped* text — while the claim's formula (split `t` itself, strip each
part, convert each) yields two items. -/
theorem parse_list0_spec_cex :
    parse_list0 (fun s => Except.ok s) (toL " ") (toL " a") = .ok [toL "a"] ∧
      parse_list0_spec (fun s => Except.ok s) (toL " ") (toL " a") = .ok [[], toL "a"] ∧
      (Except.ok [toL "a"] : Except PyError (List (List Char))) ≠ .ok [[], toL "a"] := by
  decide

/-- Claim C5 (amended): for a non-empty separator containing no whitespace
characters, `parse_list0` behaves exactly as the claim describes
(`parse_list0_spec`): an empty sequence on blank text, and otherwise the text
split on `sep` with each part stripped and converted independently, in input
order.  (For separators containing whitespace the two sides differ, and
Python raises `ValueError` on an empty separator.) -/
theorem parse_list0_eq_spec (parse_type : List Char → Except PyError α)
    (listsep text : List Char) (hsep : listsep ≠ [])
    (hws : ∀ x ∈ listsep, isPySpace x = false) :
    parse_list0 parse_type listsep text = parse_list0_spec parse_type listsep text := by
  unfold parse_list0 parse_list0_spec
  by_cases ht : text = []
  · subst ht
    simp [pystrip_nil]
  · simp only [ne_eq, ht, not_false_eq_true, if_true]
    by_cases hstrip : pystrip text = []
    · rw [if_pos hstrip, if_pos hstrip]
    · rw [if_neg hstrip, if_neg hstrip]
      unfold pysplit
      rw [if_neg hsep, if_neg hsep]
      show convertParts parse_type (splitGo listsep (pystrip text).length (pystrip text)) =
        convertParts parse_type (splitGo listsep text.length text)
      exact convertParts_congr parse_type _ _
        (map_pystrip_splitGo_pystrip listsep hsep hws text).symm

theorem parse_list0_eq_spec_witness :
    parse_list0 (fun s => Except.ok s) (toL ",") (toL " a ,b ") =
      parse_list0_spec (fun s => Except.ok s) (toL ",") (toL " a ,b ") :=
  parse_list0_eq_spec (fun s => Except.ok s) (toL ",") (toL " a ,b ")
    (by decide) (by decide)

/-! ### Fully-stripped items and the round trip (C2) -/

theorem length_pylstrip_le (s : List Char) : (pylstrip s).length ≤ s.length := by
  unfold pylstrip
  induction s with
  | nil => simp
  | cons c s' ih =>
    by_cases hc : isPySpace c = true
    · rw [List.dropWhile_cons_of_pos hc]
      exact Nat.le_trans ih (by simp)
    · rw [List.dropWhile_cons_of_neg hc]

theorem pylstrip_eq_self_of_length (s : List Char)
    (h : (pylstrip s).length = s.length) : pylstrip s = s := by
  unfold pylstrip at h ⊢
  cases s with
  | nil => rfl
  | cons c s' =>
    by_cases hc : isPySpace c = true
    · rw [List.dropWhile_cons_of_pos hc] at h ⊢
      exfalso
      have := length_pylstrip_le s'
      unfold pylstrip at this
      simp only [List.length_cons] at h
      omega
    · rw [List.dropWhile_cons_of_neg hc]

theorem pyrstrip_length_le (s : List Char) : (pyrstrip s).length ≤ s.length := by
  unfold pyrstrip
  rw [List.length_reverse]
  have := length_pylstrip_le s.reverse
  rw [List.length_reverse] at this
  exact this

theorem pylstrip_of_pystrip_eq_self (s : List Char) (h : pystrip s = s) :
    pylstrip s = s := by
  have h1 : (pystrip s).length = s.length := by rw [h]
  have h2 : (pystrip s).length ≤ (pylstrip s).length := pyrstrip_length_le (pylstrip s)
  have h3 : (pylstrip s).length ≤ s.length := length_pylstrip_le s
  exact pylstrip_eq_self_of_length s (by omega)

theorem pyrstrip_of_pystrip_eq_self (s : List Char) (h : pystrip s = s) :
    pyrstrip s = s := by
  have h1 := pylstrip_of_pystrip_eq_self s h
  have h2 : pystrip s = pyrstrip s := by
    unfold pystrip
    rw [h1]
  rw [← h2, h]

theorem pyjoin_concat (sep : List Char) :
    ∀ (front : List (List Char)) (z : List Char), front ≠ [] →
      pyjoin sep (front ++ [z]) = pyjoin sep front ++ sep ++ z := by
  intro front
  induction front with
  | nil =>
    intro z h
    exact absurd rfl h
  | cons y f' ih =>
    intro z _
    cases f' with
    | nil => simp [pyjoin]
    | cons w f'' =>
      have h1 : (y :: w :: f'') ++ [z] = y :: w :: (f'' ++ [z]) := by simp
      rw [h1]
      show y ++ sep ++ pyjoin sep (w :: (f'' ++ [z])) = _
      rw [show (w :: (f'' ++ [z])) = (w :: f'') ++ [z] from by simp]
      rw [ih z (by simp)]
      show _ = (y ++ sep ++ pyjoin sep (w :: f'')) ++ sep ++ z
      simp [List.append_assoc]

/-- Joining items that carry no surrounding whitespace yields a string that
stripping leaves unchanged. -/
theorem pystrip_pyjoin (sep : List Char) (items : List (List Char))
    (hitems : ∀ a ∈ items, pystrip a = a ∧ a ≠ []) :
    pystrip (pyjoin sep items) = pyjoin sep items := by
  cases items with
  | nil => exact pystrip_nil
  | cons a rest =>
    have ha := hitems a (List.mem_cons_self a rest)
    have ha1 : pylstrip a = a := pylstrip_of_pystrip_eq_self a ha.1
    have ha2 : pylstrip a ≠ [] := by
      rw [ha1]
      exact ha.2
    have hls : pylstrip (pyjoin sep (a :: rest)) = pyjoin sep (a :: rest) := by
      cases rest with
      | nil => exact pylstrip_of_pystrip_eq_self a ha.1
      | cons b rest' =>
        have h1 : pyjoin sep (a :: b :: rest') = a ++ (sep ++ pyjoin sep (b :: rest')) := by
          show a ++ sep ++ pyjoin sep (b :: rest') = _
          rw [List.append_assoc]
        rw [h1, pylstrip_append_of_ne_nil a _ ha2, ha1]
    have hrs : pyrstrip (pyjoin sep (a :: rest)) = pyjoin sep (a :: rest) := by
      obtain h | ⟨front, z, hfz⟩ := List.eq_nil_or_concat (a :: rest)
      · exact absurd h (by simp)
      · have hzmem : z ∈ a :: rest := by
          rw [hfz, List.concat_eq_append]
          exact List.mem_append_right front (List.mem_cons_self z [])
        have hz := hitems z hzmem
        have hz1 : pyrstrip z = z := pyrstrip_of_pystrip_eq_self z hz.1
        have hz2 : pyrstrip z ≠ [] := by
          rw [hz1]
          exact hz.2
        rw [hfz, List.concat_eq_append]
        cases front with
        | nil => exact hz1
        | cons w f' =>
          rw [pyjoin_concat sep (w :: f') z (by simp)]
          rw [show pyjoin sep (w :: f') ++ sep ++ z =
            (pyjoin sep (w :: f') ++ sep) ++ z from rfl]
          rw [pyrstrip_append_of_ne_nil _ z hz2, hz1]
    unfold pystrip
    rw [hls, hrs]

theorem convertParts_eq_mapExcept (parse_type : List Char → Except PyError α) :
    ∀ (l : List (List Char)), (∀ a ∈ l, pystrip a = a) →
      convertParts parse_type l = mapExcept parse_type l := by
  intro l
  induction l with
  | nil =>
    intro _
    rfl
  | cons a as ih =>
    intro h
    simp only [convertParts, mapExcept]
    rw [h a (List.mem_cons_self a as), ih (fun x hx => h x (List.mem_cons_of_mem a hx))]

/-- Claim C2 (corrected, counterexample): with separator `"aa"` and items
`["a", "a"]` — each non-empty after stripping, and neither containing an
occurrence of `"aa"` — joining gives `"aaaa"`, where the separator occurs
across the join boundaries: the one-or-more converter returns three empty
items rather than `[base "a", base "a"]`. -/
theorem parse_list_roundtrip_cex :
    pyjoin (toL "aa") [toL "a", toL "a"] = toL "aaaa" ∧
      parse_list (fun s => Except.ok s) (toL "aa") (toL "aaaa") = .ok [[], [], []] ∧
      (Except.ok [[], [], []] : Except PyError (List (List Char))) ≠
        .ok [toL "a", toL "a"] := by
  decide

/-- Claim C2 (amended): for a non-empty separator and items that are
non-empty, carry no surrounding whitespace, and contain no character of the
separator, joining with the separator and converting with the one-or-more
converter (any non-empty item sequence) or the zero-or-more converter (any
item sequence) yields the base-converted items in input order. -/
theorem parse_list_roundtrip (parse_type : List Char → Except PyError α)
    (sep : List Char) (items : List (List Char)) (hsep : sep ≠ [])
    (hitems : ∀ a ∈ items, a ≠ [] ∧ pystrip a = a ∧ ∀ x ∈ a, x ∉ sep) :
    (items ≠ [] →
      parse_list parse_type sep (pyjoin sep items) = mapExcept parse_type items) ∧
    parse_list0 parse_type sep (pyjoin sep items) = mapExcept parse_type items := by
  have hconv : convertParts parse_type items = mapExcept parse_type items :=
    convertParts_eq_mapExcept parse_type items (fun a ha => (hitems a ha).2.1)
  have hsplit : items ≠ [] →
      splitGo sep (pyjoin sep items).length (pyjoin sep items) = items :=
    fun hne => splitGo_pyjoin sep hsep items (pyjoin sep items).length hne
      (fun a ha => (hitems a ha).2.2) (le_refl _)
  constructor
  · intro hne
    unfold parse_list pysplit
    rw [if_neg hsep]
    show convertParts parse_type
      (splitGo sep (pyjoin sep items).length (pyjoin sep items)) = _
    rw [hsplit hne, hconv]
  · cases items with
    | nil => rfl
    | cons a rest =>
      have hne : (a :: rest : List (List Char)) ≠ [] := by simp
      have hstr : pystrip (pyjoin sep (a :: rest)) = pyjoin sep (a :: rest) :=
        pystrip_pyjoin sep (a :: rest)
          (fun x hx => ⟨(hitems x hx).2.1, (hitems x hx).1⟩)
      have htne : pyjoin sep (a :: rest) ≠ [] := by
        intro h0
        have ha := hitems a (List.mem_cons_self a rest)
        cases rest with
        | nil => exact ha.1 h0
        | cons b rest' =>
          have h0' : (a ++ sep) ++ pyjoin sep (b :: rest') = [] := h0
          have h1 := (List.append_eq_nil.mp h0').1
          exact ha.1 (List.append_eq_nil.mp h1).1
      unfold parse_list0
      simp only [ne_eq, htne, not_false_eq_true, if_true]
      rw [hstr, if_neg htne]
      unfold pysplit
      rw [if_neg hsep]
      show convertParts parse_type
        (splitGo sep (pyjoin sep (a :: rest)).length (pyjoin sep (a :: rest))) = _
      rw [hsplit hne, hconv]

theorem parse_list_roundtrip_witness :
    parse_list (fun s => Except.ok s) (toL ",")
        (pyjoin (toL ",") [toL "a", toL "b", toL "c"]) =
      mapExcept (fun s => Except.ok s) [toL "a", toL "b", toL "c"] ∧
    parse_list0 (fun s => Except.ok s) (toL ",")
        (pyjoin (toL ",") [toL "a", toL "b", toL "c"]) =
      mapExcept (fun s => Except.ok s) [toL "a", toL "b", toL "c"] := by
  have h := parse_list_roundtrip (fun s => Except.ok s) (toL ",")
    [toL "a", toL "b", toL "c"] (by decide) (by decide)
  exact ⟨h.1 (by decide), h.2⟩
